import Mathlib

/-!
Verification of the SugaR/Stockfish UCI options registry (`ucioption.cpp`).

The development shallowly embeds the `Option` class (here `Opt`, to avoid
clashing with Lean's `Option`), the `OptionsMap` (an association list with
case-insensitive keys, observationally equivalent to `std::map<string, Option,
CaseInsensitiveLess>` because keys are unique up to the comparator and the
`idx` fields written by `operator<<` are pairwise distinct within one map),
the global `insert_order` counter (threaded explicitly as a `Nat`), and the
write path `Option::operator=`.

Modelling conventions:
  * `stof` is modelled as exact decimal parsing into `ℚ` of the longest
    numeric prefix (sign, digits, optional fraction), returning `none` when
    no digit is consumed — the case where `std::stof` throws
    `std::invalid_argument`.  A write that lets the exception escape is
    modelled as `Except.error ()`.  Real `std::stof` additionally rounds to
    binary32, accepts exponent/hex/inf forms, and throws
    `std::out_of_range` for finite text whose value exceeds `float` range;
    those paths are not modelled, and the theorems below use `stof` only
    where the two semantics agree (plain in-range decimal literals,
    strings with no numeric prefix) or where the statement is invariant
    under the parse because the guard and the read-back share it.
  * the `on_change` callback is opaque to the registry; we record whether it
    is attached (`hasOnChange`) and, per write, the argument it is invoked
    with (`hookArg`, `none` when it is not invoked).
-/

namespace Stockfish
namespace UCI

/-- C `tolower` restricted to the ASCII range, as applied to the
single-byte characters used by the engine. -/
def tolower (c : Char) : Char :=
  if 'A' ≤ c ∧ c ≤ 'Z' then Char.ofNat (c.toNat + 32) else c

/-- `std::lexicographical_compare` over characters, with the comparison
`tolower c1 < tolower c2` used by `CaseInsensitiveLess::operator()`. -/
def lexLess : List Char → List Char → Bool
  | _, [] => false
  | [], _ :: _ => true
  | c1 :: t1, c2 :: t2 =>
    if tolower c1 < tolower c2 then true
    else if tolower c2 < tolower c1 then false
    else lexLess t1 t2

/-- `CaseInsensitiveLess::operator()`: case-insensitive lexicographic
strict order on strings. -/
def CaseInsensitiveLess (s1 s2 : String) : Bool :=
  lexLess s1.data s2.data

/-- Key equivalence induced by the comparator, as used by
`std::map` with `CaseInsensitiveLess`: neither key is less than the other. -/
def ciEq (a b : String) : Bool :=
  !CaseInsensitiveLess a b && !CaseInsensitiveLess b a

/-- The C++ `Option` class (field-for-field; `on_change` is abstracted to
whether a callback is attached). -/
structure Opt where
  type : String := ""
  defaultValue : String := ""
  currentValue : String := ""
  min : Int := 0
  max : Int := 0
  hasOnChange : Bool := false
  idx : Nat := 0
deriving Repr, DecidableEq, Inhabited

/-- Longest run of decimal digits at the front of a character list, and the
remainder. -/
def takeDigits : List Char → List Char × List Char
  | [] => ([], [])
  | c :: cs =>
    if c.isDigit then
      let p := takeDigits cs
      (c :: p.1, p.2)
    else ([], c :: cs)

/-- Value of a digit run, most significant first. -/
def digitsToNat (l : List Char) : Nat :=
  l.foldl (fun a c => 10 * a + (c.toNat - 48)) 0

/-- `std::stof` on the engine's inputs, modelled exactly over `ℚ`:
skip leading spaces, optional sign, longest run of digits with an optional
fractional part.  Returns `none` when no digit is consumed, the case where
`std::stof` raises `std::invalid_argument`.  Not modelled: binary32
rounding of the parsed value, exponent/hex/inf spellings, and the
`std::out_of_range` raised for finite text beyond `float` range. -/
def stof (s : String) : Option ℚ :=
  let l := s.data.dropWhile (fun c => c = ' ' ∨ c = '\t')
  let sign : Bool × List Char :=
    match l with
    | '-' :: r => (true, r)
    | '+' :: r => (false, r)
    | _ => (false, l)
  let ip := takeDigits sign.2
  let fp : List Char :=
    match ip.2 with
    | '.' :: r => (takeDigits r).1
    | _ => []
  if ip.1.isEmpty ∧ fp.isEmpty then none
  else
    let den : Nat := 10 ^ fp.length
    let n : Int := Int.ofNat (digitsToNat ip.1 * den + digitsToNat fp)
    some (mkRat (if sign.1 then -n else n) den)

/-- Whitespace predicate of `std::istringstream` token extraction. -/
def isWs (c : Char) : Bool :=
  c = ' ' ∨ c = '\t' ∨ c = '\n' ∨ c = '\r'

/-- Worker for `splitTokens`: `acc` is the current token, reversed. -/
def splitWsAux : List Char → List Char → List String
  | [], acc => if acc.isEmpty then [] else [String.mk acc.reverse]
  | c :: cs, acc =>
    if isWs c then
      if acc.isEmpty then splitWsAux cs []
      else String.mk acc.reverse :: splitWsAux cs []
    else splitWsAux cs (c :: acc)

/-- The sequence of tokens `std::istringstream >> token` extracts:
maximal runs of non-whitespace characters. -/
def splitTokens (s : String) : List String :=
  splitWsAux s.data []

/-- Keys of the temporary `comboMap` built inside `operator=`:
`comboMap[token]` inserts `token` unless an equivalent key is present. -/
def buildComboKeys : List String → List String → List String
  | acc, [] => acc
  | acc, t :: ts =>
    buildComboKeys (if acc.any (fun k => ciEq k t) then acc else acc ++ [t]) ts

/-- `comboMap.count(v)` on the key list: an equivalent key exists. -/
def comboCount (keys : List String) (v : String) : Bool :=
  keys.any (fun k => ciEq k v)

/-- Observable outcome of `Option::operator=`: the option afterwards, the
argument `on_change` was invoked with (`none` when it was not invoked), and
the global `insert_order` counter afterwards. -/
structure AssignOut where
  result : Opt
  hookArg : Option Opt
  counter : Nat
deriving Repr, DecidableEq

instance : DecidableEq (Except Unit AssignOut) := fun x y =>
  match x, y with
  | .ok a, .ok b =>
    if h : a = b then isTrue (by rw [h])
    else isFalse (by intro he; injection he; exact h (by assumption))
  | .error a, .error b => isTrue (by cases a; cases b; rfl)
  | .ok _, .error _ => isFalse (by intro he; cases he)
  | .error _, .ok _ => isFalse (by intro he; cases he)

/-- Tail of `operator=` after validation: store unless `button`, then invoke
`on_change` (if attached) with `*this`. -/
def finishAssign (o : Opt) (v : String) (c : Nat) : AssignOut :=
  let o2 := if o.type ≠ "button" then { o with currentValue := v } else o
  ⟨o2, if o2.hasOnChange then some o2 else none, c⟩

/-- `Option::operator=(const string& v)`.  The three-way guard, the
`combo` token map (each `comboMap[token] << Option()` advances the global
`insert_order` by one, once per token occurrence), the store, and the hook.
`Except.error ()` is the `std::stof` exception escaping the call. -/
def assign (o : Opt) (v : String) (c : Nat) : Except Unit AssignOut :=
  if o.type ≠ "button" ∧ v = "" then .ok ⟨o, none, c⟩
  else if o.type = "check" ∧ v ≠ "true" ∧ v ≠ "false" then .ok ⟨o, none, c⟩
  else if o.type = "spin" then
    match stof v with
    | none => .error ()
    | some x =>
      if x < (o.min : ℚ) ∨ x > (o.max : ℚ) then .ok ⟨o, none, c⟩
      else .ok (finishAssign o v c)
  else if o.type = "combo" then
    let toks := splitTokens o.defaultValue
    let c2 := c + toks.length
    if comboCount (buildComboKeys [] toks) v = false ∨ v = "var" then
      .ok ⟨o, none, c2⟩
    else .ok (finishAssign o v c2)
  else .ok (finishAssign o v c)

/-- `Option::Option(const char* v, OnChange)`. -/
def Opt.mkString (v : String) (f : Bool) : Opt :=
  { type := "string", min := 0, max := 0, hasOnChange := f,
    defaultValue := v, currentValue := v }

/-- `Option::Option(bool v, OnChange)`. -/
def Opt.mkCheck (v : Bool) (f : Bool) : Opt :=
  { type := "check", min := 0, max := 0, hasOnChange := f,
    defaultValue := if v then "true" else "false",
    currentValue := if v then "true" else "false" }

/-- `Option::Option(OnChange)`. -/
def Opt.mkButton (f : Bool) : Opt :=
  { type := "button", min := 0, max := 0, hasOnChange := f }

/-- `std::to_string(double)` on the integral doubles the engine declares
spins with: `%f` formatting, six fractional digits. -/
def intToFloatString (v : Int) : String :=
  toString v ++ ".000000"

/-- `Option::Option(double v, int minv, int maxv, OnChange)`; every spin the
engine declares passes an integral value. -/
def Opt.mkSpin (v minv maxv : Int) (f : Bool) : Opt :=
  { type := "spin", min := minv, max := maxv, hasOnChange := f,
    defaultValue := intToFloatString v, currentValue := intToFloatString v }

/-- `Option::Option(const char* v, const char* cur, OnChange)`. -/
def Opt.mkCombo (v cur : String) (f : Bool) : Opt :=
  { type := "combo", min := 0, max := 0, hasOnChange := f,
    defaultValue := v, currentValue := cur }

/-- `Option::operator double()`: numeric read, valid for `spin`/`check`
(`none` models the assertion failing on other kinds). -/
def Opt.toDouble (o : Opt) : Option ℚ :=
  if o.type = "spin" then stof o.currentValue
  else if o.type = "check" then
    some (if o.currentValue = "true" then 1 else 0)
  else none

/-- `OptionsMap`: `std::map<string, Option, CaseInsensitiveLess>`, modelled
as an association list.  Keys are unique up to `ciEq` and the `idx` values
are pairwise distinct in any map the program builds, so lookup by `ciEq` and
selection by `idx` do not depend on the backing order; the list is kept in
insertion order. -/
abbrev OptionsMap := List (String × Opt)

/-- `om[name]` on the left of `<<`: replace the value at the equivalent key
(the stored key, with its original case, is kept), or insert at a fresh
key.  The value written by `operator<<` is the argument with `idx`
overwritten by the global counter. -/
def setAt : OptionsMap → String → Opt → OptionsMap
  | [], name, o => [(name, o)]
  | (k, old) :: rest, name, o =>
    if ciEq k name then (k, o) :: rest
    else (k, old) :: setAt rest name o

/-- `om[name] << Option(...)`: `Option::operator<<` copies the argument and
assigns `idx = insert_order++` from the function-local static counter shared
by every map in the process. -/
def declare (st : Nat × OptionsMap) (name : String) (o : Opt) :
    Nat × OptionsMap :=
  (st.1 + 1, setAt st.2 name { o with idx := st.1 })

/-- `om.find(name)`: the entry whose key is `CaseInsensitiveLess`-equivalent
to `name`, if any. -/
def mapFind : OptionsMap → String → Option (String × Opt)
  | [], _ => none
  | (k, o) :: rest, name =>
    if ciEq k name then some (k, o) else mapFind rest name

/-- `Options[name] = v` on a declared name: run `operator=` on the stored
option, keeping the stored key; the global counter is threaded through
(a combo write advances it).  A write whose `stof` throws leaves the map
and counter unchanged (the exception escapes before any mutation). -/
def mapWrite (c : Nat) (om : OptionsMap) (name v : String) :
    Nat × OptionsMap :=
  match om with
  | [] => (c, [])
  | (k, o) :: rest =>
    if ciEq k name then
      match assign o v c with
      | .ok r => (r.counter, (k, r.result) :: rest)
      | .error _ => (c, (k, o) :: rest)
    else
      let p := mapWrite c rest name v
      (p.1, (k, o) :: p.2)

/-- Inner loop of `operator<<(std::ostream&, const OptionsMap&)`: the first
entry whose `idx` field equals `i` (`break` stops at the first match). -/
def findByIdx : OptionsMap → Nat → Option (String × Opt)
  | [], _ => none
  | (k, o) :: rest, i =>
    if o.idx = i then some (k, o) else findByIdx rest i

/-- `operator<<(std::ostream&, const OptionsMap&)`: for each
`idx = 0 … om.size()-1` print the entry (name in original case) whose `idx`
field matches; an `idx` no entry carries prints nothing. -/
def enumerate (om : OptionsMap) : List (String × Opt) :=
  (List.range om.length).filterMap (findByIdx om)

/-- `Is64Bit` comes from `types.h`, outside the given source; the spec's
hash bound `33554432` is the 64-bit value. -/
def Is64Bit : Bool := true

/-- Modelled from the spec: `EvalFileDefaultName` is a macro from
`evaluate.h`, outside the given source — an arbitrary default text for the
`EvalFile` String setting ("arbitrary text"); no claim depends on its
value. -/
def EvalFileDefaultName : String := "nn.nnue"

def MaxHashMB : Int := if Is64Bit then 33554432 else 2048

/-- `UCI::init(OptionsMap&)`: the fixed declaration sequence, started on a
fresh counter. -/
def init : Nat × OptionsMap :=
  let s := ((0, []) : Nat × OptionsMap)
  let s := declare s "Debug Log File" (Opt.mkString "" true)
  let s := declare s "Contempt" (Opt.mkSpin 24 (-100) 100 false)
  let s := declare s "Analysis Contempt"
    (Opt.mkCombo "Both var Off var White var Black var Both" "Both" false)
  let s := declare s "Threads" (Opt.mkSpin 1 1 512 true)
  let s := declare s "Hash" (Opt.mkSpin 16 1 MaxHashMB true)
  let s := declare s "Clear Hash" (Opt.mkButton true)
  let s := declare s "Ponder" (Opt.mkCheck false false)
  let s := declare s "MultiPV" (Opt.mkSpin 1 1 500 false)
  let s := declare s "Skill Level" (Opt.mkSpin 20 0 20 false)
  let s := declare s "Move Overhead" (Opt.mkSpin 10 0 5000 false)
  let s := declare s "Minimum Thinking Time" (Opt.mkSpin 5 0 5000 false)
  let s := declare s "Slow Mover" (Opt.mkSpin 100 10 1000 false)
  let s := declare s "nodestime" (Opt.mkSpin 0 0 10000 false)
  let s := declare s "UCI_Chess960" (Opt.mkCheck false false)
  let s := declare s "UCI_AnalyseMode" (Opt.mkCheck false false)
  let s := declare s "UCI_LimitStrength" (Opt.mkCheck false false)
  let s := declare s "UCI_Elo" (Opt.mkSpin 1350 1350 2850 false)
  let s := declare s "UCI_ShowWDL" (Opt.mkCheck false false)
  let s := declare s "SyzygyPath" (Opt.mkString "<empty>" true)
  let s := declare s "SyzygyProbeDepth" (Opt.mkSpin 1 1 100 false)
  let s := declare s "Syzygy50MoveRule" (Opt.mkCheck true false)
  let s := declare s "SyzygyProbeLimit" (Opt.mkSpin 7 0 7 false)
  let s := declare s "Book1" (Opt.mkCheck false false)
  let s := declare s "Book1 File" (Opt.mkString "<empty>" true)
  let s := declare s "Book1 BestBookMove" (Opt.mkCheck true false)
  let s := declare s "Book1 Depth" (Opt.mkSpin 100 1 350 false)
  let s := declare s "Book2" (Opt.mkCheck false false)
  let s := declare s "Book2 File" (Opt.mkString "<empty>" true)
  let s := declare s "Book2 BestBookMove" (Opt.mkCheck true false)
  let s := declare s "Book2 Depth" (Opt.mkSpin 100 1 350 false)
  let s := declare s "Experience Enabled" (Opt.mkCheck true true)
  let s := declare s "Experience File" (Opt.mkString "SugaR.exp" true)
  let s := declare s "Experience Readonly" (Opt.mkCheck false false)
  let s := declare s "Experience Book" (Opt.mkCheck false false)
  let s := declare s "Experience Book Best Move" (Opt.mkCheck true false)
  let s := declare s "Experience Book Eval Importance" (Opt.mkSpin 5 0 10 false)
  let s := declare s "Experience Book Max Moves" (Opt.mkSpin 16 1 100 false)
  let s := declare s "EvalFile" (Opt.mkString EvalFileDefaultName true)
  let s := declare s "Use NNUE Evaluation" (Opt.mkCheck true true)
  let s := declare s "Use Classical Evaluation" (Opt.mkCheck true false)
  s

/-- One write applied to a single option; a write whose `stof` throws leaves
the option unchanged.  The option state after `operator=` does not depend on
the counter argument, so it is fixed to `0` here. -/
def writeStep (o : Opt) (v : String) : Opt :=
  match assign o v 0 with
  | .ok r => r.result
  | .error _ => o

/-- A sequence of `Write` operations on one option. -/
def applyWrites (o : Opt) (ws : List String) : Opt :=
  ws.foldl writeStep o

/-- The `Spin` range invariant: the stored value, read back as a number the
way `Option::operator double()` reads it, lies within `[min, max]`. -/
def spinInRange (o : Opt) : Bool :=
  match Opt.toDouble o with
  | some x => decide ((o.min : ℚ) ≤ x ∧ x ≤ (o.max : ℚ))
  | none => false

/-- The `Combo` invariant: the stored value case-insensitively equals one of
the tokens of the `defaultValue` token list. -/
def comboValueInList (o : Opt) : Bool :=
  (splitTokens o.defaultValue).any (fun t => ciEq t o.currentValue)

/-- The validation predicate of `Option::operator=`: mirrors the guard
structure of `assign`; `accepts o v = true` exactly when the write falls
through to the store-and-notify tail. -/
def accepts (o : Opt) (v : String) : Bool :=
  if o.type ≠ "button" ∧ v = "" then false
  else if o.type = "check" ∧ v ≠ "true" ∧ v ≠ "false" then false
  else if o.type = "spin" then
    match stof v with
    | none => false
    | some x => !(decide (x < (o.min : ℚ)) || decide (x > (o.max : ℚ)))
  else if o.type = "combo" then
    comboCount (buildComboKeys [] (splitTokens o.defaultValue)) v
      && !(v == "var")
  else true

end UCI
end Stockfish

namespace Stockfish
namespace UCI

/-! ### The case-insensitive comparator -/

theorem lexLess_ff_iff (l1 l2 : List Char) :
    (lexLess l1 l2 = false ∧ lexLess l2 l1 = false) ↔
      l1.map tolower = l2.map tolower := by
  induction l1 generalizing l2 with
  | nil => cases l2 <;> simp [lexLess]
  | cons c1 t1 ih =>
      cases l2 with
      | nil => simp [lexLess]
      | cons c2 t2 =>
          rcases lt_trichotomy (tolower c1) (tolower c2) with h | h | h
          · simp [lexLess, h, asymm h, ne_of_lt h]
          · simp [lexLess, h, lt_irrefl, ih]
          · simp [lexLess, h, asymm h, ne_of_gt h]

theorem ciEq_iff_map (a b : String) :
    ciEq a b = true ↔ a.data.map tolower = b.data.map tolower := by
  unfold ciEq CaseInsensitiveLess
  rw [Bool.and_eq_true, Bool.not_eq_true', Bool.not_eq_true']
  exact lexLess_ff_iff a.data b.data

theorem ciEq_refl (a : String) : ciEq a a = true :=
  (ciEq_iff_map a a).2 rfl

theorem ciEq_symm {a b : String} (h : ciEq a b = true) : ciEq b a = true :=
  (ciEq_iff_map b a).2 ((ciEq_iff_map a b).1 h).symm

theorem ciEq_trans {a b c : String} (h1 : ciEq a b = true)
    (h2 : ciEq b c = true) : ciEq a c = true :=
  (ciEq_iff_map a c).2 (((ciEq_iff_map a b).1 h1).trans ((ciEq_iff_map b c).1 h2))

theorem ciEq_congr_right {s1 s2 : String} (h : ciEq s1 s2 = true)
    (k : String) : ciEq k s1 = ciEq k s2 := by
  by_cases hk : ciEq k s1 = true
  · rw [hk, ciEq_trans hk h]
  · rcases hv : ciEq k s2 with _ | _
    · rw [Bool.not_eq_true] at hk; rw [hk]
    · exact absurd (ciEq_trans hv (ciEq_symm h)) hk

/-! ### Tokens -/

theorem mem_splitWsAux_ne_empty {t : String} :
    ∀ (l acc : List Char), t ∈ splitWsAux l acc → t.data ≠ [] := by
  intro l
  induction l with
  | nil =>
      intro acc h
      unfold splitWsAux at h
      split at h
      · cases h
      · rcases List.mem_singleton.1 h with rfl
        simp_all [List.isEmpty_iff]
  | cons c cs ih =>
      intro acc h
      unfold splitWsAux at h
      split at h
      · split at h
        · exact ih [] h
        · rcases List.mem_cons.1 h with rfl | h2
          · simp_all [List.isEmpty_iff]
          · exact ih [] h2
      · exact ih (c :: acc) h

theorem mem_splitTokens_ne_empty {t s : String} (h : t ∈ splitTokens s) :
    t ≠ "" := by
  intro he
  have := mem_splitWsAux_ne_empty s.data [] (by simpa [splitTokens] using h)
  rw [he] at this
  exact this rfl

theorem not_ciEq_empty {t : String} (ht : t ≠ "") : ciEq t "" = false := by
  rcases hv : ciEq t "" with _ | _
  · rfl
  · exfalso
    have := (ciEq_iff_map t "").1 hv
    simp only [String.data] at this
    simp at this
    exact ht (by cases t with | mk d => simp_all)

/-! ### The temporary combo map -/

theorem comboCount_build (v : String) :
    ∀ (toks acc : List String),
      comboCount (buildComboKeys acc toks) v =
        (comboCount acc v || toks.any (fun t => ciEq t v)) := by
  intro toks
  induction toks with
  | nil => intro acc; simp [buildComboKeys]
  | cons t ts ih =>
      intro acc
      simp only [buildComboKeys]
      by_cases hmem : acc.any (fun k => ciEq k t) = true
      · rw [if_pos hmem, ih acc]
        rcases hciv : ciEq t v with _ | _
        · simp [List.any_cons, hciv]
        · have hc : comboCount acc v = true := by
            rcases List.any_eq_true.1 hmem with ⟨k, hk, hkt⟩
            exact List.any_eq_true.2 ⟨k, hk, ciEq_trans hkt hciv⟩
          simp [List.any_cons, hciv, hc]
      · rw [if_neg hmem, ih (acc ++ [t])]
        simp [comboCount, List.any_append, List.any_cons, Bool.or_assoc]

theorem comboCount_eq_any (toks : List String) (v : String) :
    comboCount (buildComboKeys [] toks) v = toks.any (fun t => ciEq t v) := by
  rw [comboCount_build v toks []]
  simp [comboCount]

/-! ### Characterization of the write path -/

/-- `operator=` in closed form: an accepted write stores (unless `button`)
and notifies; a rejected write returns `*this` untouched with no
notification; a `spin` write whose value `stof` cannot parse escapes with
the exception.  The counter advances by the token count exactly when the
`combo` token map is built. -/
theorem assign_eq (o : Opt) (v : String) (c : Nat) :
    assign o v c =
      if accepts o v = true then
        .ok (finishAssign o v
          (if o.type = "combo" then c + (splitTokens o.defaultValue).length else c))
      else if o.type = "spin" ∧ v ≠ "" ∧ stof v = none then .error ()
      else .ok ⟨o, none,
        if o.type = "combo" ∧ v ≠ "" then c + (splitTokens o.defaultValue).length
        else c⟩ := by
  by_cases h1 : o.type ≠ "button" ∧ v = ""
  · have hacc : accepts o v = false := by unfold accepts; rw [if_pos h1]
    unfold assign
    rw [if_pos h1, hacc]
    simp [h1.2]
  · by_cases h2 : o.type = "check" ∧ v ≠ "true" ∧ v ≠ "false"
    · have hacc : accepts o v = false := by
        unfold accepts; rw [if_neg h1, if_pos h2]
      have hs : o.type ≠ "spin" := by rw [h2.1]; decide
      have hco : o.type ≠ "combo" := by rw [h2.1]; decide
      unfold assign
      rw [if_neg h1, if_pos h2, hacc]
      simp [hs, hco]
    · by_cases h3 : o.type = "spin"
      · have hv : v ≠ "" := fun he => h1 ⟨by rw [h3]; decide, he⟩
        have hco : o.type ≠ "combo" := by rw [h3]; decide
        rcases hstof : stof v with _ | x
        · have hacc : accepts o v = false := by
            unfold accepts; rw [if_neg h1, if_neg h2, if_pos h3, hstof]
          unfold assign
          rw [if_neg h1, if_neg h2, if_pos h3, hstof, hacc]
          simp [h3, hv, hstof]
        · have hacc : accepts o v =
              !(decide (x < (o.min : ℚ)) || decide (x > (o.max : ℚ))) := by
            unfold accepts; rw [if_neg h1, if_neg h2, if_pos h3, hstof]
          unfold assign
          rw [if_neg h1, if_neg h2, if_pos h3, hstof]
          by_cases hr : x < (o.min : ℚ) ∨ x > (o.max : ℚ)
          · have : accepts o v = false := by
              rw [hacc]
              rcases hr with hr | hr <;> simp [hr]
            rw [this]
            simp [hr, hco]
          · have : accepts o v = true := by
              rw [hacc]
              push_neg at hr
              simp [not_lt.2 hr.1, not_lt.2 hr.2]
            rw [this]
            simp [hr, hco]
      · by_cases h4 : o.type = "combo"
        · have hv : v ≠ "" := fun he => h1 ⟨by rw [h4]; decide, he⟩
          have hacc : accepts o v =
              (comboCount (buildComboKeys [] (splitTokens o.defaultValue)) v
                && !(v == "var")) := by
            unfold accepts; rw [if_neg h1, if_neg h2, if_neg h3, if_pos h4]
          unfold assign
          rw [if_neg h1, if_neg h2, if_neg h3, if_pos h4]
          simp only []
          by_cases hrej :
              comboCount (buildComboKeys [] (splitTokens o.defaultValue)) v = false
                ∨ v = "var"
          · have : accepts o v = false := by
              rw [hacc]
              rcases hrej with hr | hr <;> simp [hr]
            rw [if_pos hrej, this]
            simp [h4, hv, fun hsp => h3 hsp]
          · have hcc :
                comboCount (buildComboKeys [] (splitTokens o.defaultValue)) v = true := by
              rcases hcv : comboCount (buildComboKeys [] (splitTokens o.defaultValue)) v
              · exact absurd (Or.inl hcv) hrej
              · rfl
            have hvar : v ≠ "var" := fun hv2 => hrej (Or.inr hv2)
            have : accepts o v = true := by rw [hacc]; simp [hcc, hvar]
            rw [if_neg hrej, this]
            simp [h4]
        · have hacc : accepts o v = true := by
            unfold accepts; rw [if_neg h1, if_neg h2, if_neg h3, if_neg h4]
          unfold assign
          rw [if_neg h1, if_neg h2, if_neg h3, if_neg h4, hacc]
          simp [h4]

theorem accepts_empty {o : Opt} (ho : o.type ≠ "button") :
    accepts o "" = false := by
  unfold accepts; rw [if_pos ⟨ho, rfl⟩]

theorem accepts_spin_iff {o : Opt} (ho : o.type = "spin") (v : String) :
    accepts o v = true ↔
      ∃ x, stof v = some x ∧ (o.min : ℚ) ≤ x ∧ x ≤ (o.max : ℚ) := by
  by_cases hv : v = ""
  · subst hv
    rw [accepts_empty (by rw [ho]; decide)]
    constructor
    · intro h; cases h
    · rintro ⟨x, hx, -⟩
      rw [show stof "" = none from by decide] at hx
      cases hx
  · unfold accepts
    rw [ho]
    simp only [hv]
    rcases hstof : stof v with _ | x
    · simp
    · simp [not_lt]

theorem accepts_combo_iff {o : Opt} (ho : o.type = "combo") (v : String) :
    accepts o v = true ↔
      ((splitTokens o.defaultValue).any (fun t => ciEq t v) = true ∧ v ≠ "var") := by
  by_cases hv : v = ""
  · subst hv
    rw [accepts_empty (by rw [ho]; decide)]
    constructor
    · intro h; cases h
    · rintro ⟨ha, -⟩
      rcases List.any_eq_true.1 ha with ⟨t, ht, hci⟩
      rw [not_ciEq_empty (mem_splitTokens_ne_empty ht)] at hci
      cases hci
  · unfold accepts
    rw [ho, comboCount_eq_any]
    simp [hv]

theorem accepts_check_iff {o : Opt} (ho : o.type = "check") (v : String) :
    accepts o v = true ↔ (v = "true" ∨ v = "false") := by
  unfold accepts
  rw [ho]
  by_cases hv : v = ""
  · subst hv; simp
  · simp [hv]

theorem accepts_button {o : Opt} (ho : o.type = "button") (v : String) :
    accepts o v = true := by
  unfold accepts
  rw [ho]
  simp

/-- `writeStep` in closed form. -/
theorem writeStep_eq (o : Opt) (v : String) :
    writeStep o v =
      if accepts o v = true then
        (if o.type ≠ "button" then { o with currentValue := v } else o)
      else o := by
  unfold writeStep
  rw [assign_eq]
  by_cases ha : accepts o v = true
  · rw [if_pos ha, if_pos ha]; rfl
  · rw [if_neg ha, if_neg ha]
    by_cases he : o.type = "spin" ∧ v ≠ "" ∧ stof v = none
    · rw [if_pos he]
    · rw [if_neg he]

theorem applyWrites_inv (P : Opt → Prop)
    (hstep : ∀ o v, P o → P (writeStep o v)) :
    ∀ (ws : List String) (o : Opt), P o → P (applyWrites o ws) := by
  intro ws
  induction ws with
  | nil => intro o h; exact h
  | cons v vs ih => intro o h; exact ih _ (hstep o v h)

theorem writeStep_spin_inv {o : Opt}
    (h : o.type = "spin" ∧ spinInRange o = true) (v : String) :
    (writeStep o v).type = "spin" ∧ spinInRange (writeStep o v) = true := by
  rcases h with ⟨ht, hr⟩
  rw [writeStep_eq]
  by_cases ha : accepts o v = true
  · rw [if_pos ha, if_pos (by rw [ht]; decide)]
    rcases (accepts_spin_iff ht v).1 ha with ⟨x, hx, hs1, hs2⟩
    refine ⟨ht, ?_⟩
    unfold spinInRange Opt.toDouble
    simp [ht, hx, hs1, hs2]
  · rw [if_neg ha]; exact ⟨ht, hr⟩

theorem writeStep_combo_inv {o : Opt}
    (h : o.type = "combo" ∧ comboValueInList o = true) (v : String) :
    (writeStep o v).type = "combo" ∧ comboValueInList (writeStep o v) = true := by
  rcases h with ⟨ht, hr⟩
  rw [writeStep_eq]
  by_cases ha : accepts o v = true
  · rw [if_pos ha, if_pos (by rw [ht]; decide)]
    rcases (accepts_combo_iff ht v).1 ha with ⟨hany, -⟩
    exact ⟨ht, by unfold comboValueInList; simpa using hany⟩
  · rw [if_neg ha]; exact ⟨ht, hr⟩

theorem map_tolower_eq_iff (l1 l2 : List Char) :
    l1.map tolower = l2.map tolower ↔
      (l1.length = l2.length ∧
        ∀ (i : Nat) (h1 : i < l1.length) (h2 : i < l2.length),
          tolower (l1.get ⟨i, h1⟩) = tolower (l2.get ⟨i, h2⟩)) := by
  rw [List.ext_get_iff]
  constructor
  · rintro ⟨hl, hg⟩
    refine ⟨by simpa using hl, fun i h1 h2 => ?_⟩
    have := hg i (by simpa using h1) (by simpa using h2)
    simpa using this
  · rintro ⟨hl, hg⟩
    refine ⟨by simpa using hl, fun i h1 h2 => ?_⟩
    have := hg i (by simpa using h1) (by simpa using h2)
    simpa using this

theorem mapFind_congr {s1 s2 : String} (hci : ciEq s1 s2 = true) :
    ∀ om : OptionsMap, mapFind om s1 = mapFind om s2 := by
  intro om
  induction om with
  | nil => rfl
  | cons kv rest ih =>
      obtain ⟨k, o⟩ := kv
      simp only [mapFind]
      rw [ciEq_congr_right hci k]
      split <;> [rfl; exact ih]

/-! ### Claim theorems -/

/-- C2: For every Spin setting of the engine's registry, after declaration
and after any sequence of Write operations, the stored `currentValue`, read
back as a number the way `Option::operator double()` reads it, lies within
the inclusive range `[min, max]`. -/
theorem spin_value_always_in_range :
    ∀ p ∈ init.2, p.2.type = "spin" →
      ∀ ws : List String, spinInRange (applyWrites p.2 ws) = true := by
  intro p hp ht ws
  have hbase : spinInRange p.2 = true := by
    have hall :
        init.2.all (fun q => !(q.2.type == "spin") || spinInRange q.2) = true := by
      decide
    have h2 := List.all_eq_true.1 hall p hp
    rw [ht] at h2
    simpa using h2
  exact (applyWrites_inv (fun o => o.type = "spin" ∧ spinInRange o = true)
    (fun o v h => writeStep_spin_inv h v) ws p.2 ⟨ht, hbase⟩).2

/-- Witness for C2: the `Hash` spin, written with a rejected `"0"` and an
accepted `"64"`, stays in `[1, 33554432]`. -/
theorem spin_value_always_in_range_witness :
    spinInRange (applyWrites
      { type := "spin", defaultValue := "16.000000", currentValue := "16.000000",
        min := 1, max := 33554432, hasOnChange := true, idx := 4 }
      ["0", "64"]) = true :=
  spin_value_always_in_range
    ("Hash",
      { type := "spin", defaultValue := "16.000000", currentValue := "16.000000",
        min := 1, max := 33554432, hasOnChange := true, idx := 4 })
    (by decide) rfl ["0", "64"]

/-- C5: For every Combo setting of the engine's registry, after declaration
and after any sequence of Write operations, the stored `currentValue` is
case-insensitively equal to one of the tokens of its `defaultValue` token
list. -/
theorem combo_value_always_in_list :
    ∀ p ∈ init.2, p.2.type = "combo" →
      ∀ ws : List String, comboValueInList (applyWrites p.2 ws) = true := by
  intro p hp ht ws
  have hbase : comboValueInList p.2 = true := by
    have hall :
        init.2.all (fun q => !(q.2.type == "combo") || comboValueInList q.2) = true := by
      decide
    have h2 := List.all_eq_true.1 hall p hp
    rw [ht] at h2
    simpa using h2
  exact (applyWrites_inv (fun o => o.type = "combo" ∧ comboValueInList o = true)
    (fun o v h => writeStep_combo_inv h v) ws p.2 ⟨ht, hbase⟩).2

/-- Witness for C5: the `Analysis Contempt` combo, after an accepted
lowercase `"black"` and a rejected `"Purple"`, still holds a declared
token. -/
theorem combo_value_always_in_list_witness :
    comboValueInList (applyWrites
      { type := "combo", defaultValue := "Both var Off var White var Black var Both",
        currentValue := "Both", min := 0, max := 0, hasOnChange := false, idx := 2 }
      ["black", "Purple"]) = true :=
  combo_value_always_in_list
    ("Analysis Contempt",
      { type := "combo", defaultValue := "Both var Off var White var Black var Both",
        currentValue := "Both", min := 0, max := 0, hasOnChange := false, idx := 2 })
    (by decide) rfl ["black", "Purple"]

/-- C6: the comparator declares two strings equal (neither less than the
other) iff they have equal length and every corresponding character pair is
equal after lowercasing; consequently looking up any case variant of a
declared name resolves to the same registry entry. -/
theorem comparator_equiv_iff (s1 s2 : String) :
    ((CaseInsensitiveLess s1 s2 = false ∧ CaseInsensitiveLess s2 s1 = false) ↔
      (s1.data.length = s2.data.length ∧
        ∀ (i : Nat) (h1 : i < s1.data.length) (h2 : i < s2.data.length),
          tolower (s1.data.get ⟨i, h1⟩) = tolower (s2.data.get ⟨i, h2⟩)))
    ∧ ((CaseInsensitiveLess s1 s2 = false ∧ CaseInsensitiveLess s2 s1 = false) →
        ∀ om : OptionsMap, mapFind om s1 = mapFind om s2) := by
  constructor
  · rw [show CaseInsensitiveLess s1 s2 = lexLess s1.data s2.data from rfl,
        show CaseInsensitiveLess s2 s1 = lexLess s2.data s1.data from rfl,
        lexLess_ff_iff]
    exact map_tolower_eq_iff s1.data s2.data
  · intro heq
    have hci : ciEq s1 s2 = true := by
      unfold ciEq
      rw [Bool.and_eq_true, Bool.not_eq_true', Bool.not_eq_true']
      exact heq
    exact mapFind_congr hci

/-- Witness for C6: `"Threads"` and `"ThReAdS"` compare equal and look up
the same entry in a one-entry registry. -/
theorem comparator_equiv_iff_witness :
    mapFind [("Threads", Opt.mkSpin 1 1 512 true)] "Threads" =
      mapFind [("Threads", Opt.mkSpin 1 1 512 true)] "ThReAdS" :=
  (comparator_equiv_iff "Threads" "ThReAdS").2 (by decide)
    [("Threads", Opt.mkSpin 1 1 512 true)]

/-- C3: a Combo write is accepted (stores and, with a hook attached, fires
it) iff the value case-insensitively matches a token of the
whitespace-split `defaultValue` and differs from the literal `var`; writing
the exact string `"var"` always leaves the option unchanged. -/
theorem combo_write_accept_iff {o : Opt} (ho : o.type = "combo")
    (hh : o.hasOnChange = true) (v : String) (c : Nat) :
    ((∃ r, assign o v c = .ok r ∧ r.hookArg.isSome = true) ↔
      ((splitTokens o.defaultValue).any (fun t => ciEq t v) = true ∧ v ≠ "var"))
    ∧ (∀ r, assign o "var" c = .ok r → r.result = o) := by
  constructor
  · rw [assign_eq]
    by_cases ha : accepts o v = true
    · rw [if_pos ha]
      constructor
      · intro _; exact (accepts_combo_iff ho v).1 ha
      · intro _
        refine ⟨_, rfl, ?_⟩
        unfold finishAssign
        simp [show o.type ≠ "button" from by rw [ho]; decide, hh]
    · rw [if_neg ha]
      constructor
      · by_cases he : o.type = "spin" ∧ v ≠ "" ∧ stof v = none
        · rw [if_pos he]; rintro ⟨r, hr, -⟩; cases hr
        · rw [if_neg he]; rintro ⟨r, hr, hs⟩
          injection hr with hr2
          rw [← hr2] at hs
          cases hs
      · intro hcond
        exact absurd ((accepts_combo_iff ho v).2 hcond) ha
  · intro r hr
    have ha : accepts o "var" = false := by
      rcases hv : accepts o "var" with _ | _
      · rfl
      · rcases (accepts_combo_iff ho "var").1 hv with ⟨-, hne⟩
        exact absurd rfl hne
    rw [assign_eq, if_neg (by simp [ha])] at hr
    by_cases he : o.type = "spin" ∧ ("var" : String) ≠ "" ∧ stof "var" = none
    · rw [if_pos he] at hr; cases hr
    · rw [if_neg he] at hr
      injection hr with hr2
      rw [← hr2]

/-- Witness for C3: `"black"` is accepted on the `Analysis Contempt`
choice list. -/
theorem combo_write_accept_iff_witness :
    ∃ r, assign (Opt.mkCombo "Both var Off var White var Black var Both" "Both" true)
        "black" 0 = .ok r ∧ r.hookArg.isSome = true :=
  ((combo_write_accept_iff rfl rfl "black" 0).1).2 ⟨by decide, by decide⟩

/-- C9: on a Combo whose token list contains `var`, any case variant of
`var` other than the exact lowercase string is accepted — token membership
is compared case-insensitively while the `var` exclusion compares
case-sensitively — so it is stored and the hook is invoked. -/
theorem combo_var_case_variant_accepted {o : Opt} (ho : o.type = "combo")
    (hh : o.hasOnChange = true)
    (hvar : "var" ∈ splitTokens o.defaultValue)
    {v : String} (hci : ciEq "var" v = true) (hne : v ≠ "var") (c : Nat) :
    assign o v c =
      .ok ⟨{ o with currentValue := v }, some { o with currentValue := v },
        c + (splitTokens o.defaultValue).length⟩ := by
  have hacc : accepts o v = true :=
    (accepts_combo_iff ho v).2 ⟨List.any_eq_true.2 ⟨"var", hvar, hci⟩, hne⟩
  rw [assign_eq, if_pos hacc]
  unfold finishAssign
  simp [ho, show o.type ≠ "button" from by rw [ho]; decide, hh]

/-- Witness for C9: `"VAR"` is accepted and stored on the
`Analysis Contempt` list, and the hook receives the updated option. -/
theorem combo_var_case_variant_accepted_witness :
    assign (Opt.mkCombo "Both var Off var White var Black var Both" "Both" true)
        "VAR" 0 =
      .ok ⟨{ Opt.mkCombo "Both var Off var White var Black var Both" "Both" true
              with currentValue := "VAR" },
        some { Opt.mkCombo "Both var Off var White var Black var Both" "Both" true
              with currentValue := "VAR" }, 9⟩ :=
  combo_var_case_variant_accepted rfl rfl (by decide) (by decide) (by decide) 0

/-- C7: with a hook attached, the hook is invoked exactly on accepted
writes, after the new value is stored (it receives the post-store state);
on a Button any value — the empty string included — passes validation, the
hook fires, and the stored state never changes. -/
theorem hook_fires_iff_accepted (o : Opt) (v : String) (c : Nat)
    (hh : o.hasOnChange = true) :
    (accepts o v = true → ∃ r, assign o v c = .ok r ∧ r.hookArg = some r.result ∧
        r.result = (if o.type = "button" then o else { o with currentValue := v }))
    ∧ (accepts o v = false → ∀ r, assign o v c = .ok r →
        r.hookArg = none ∧ r.result = o)
    ∧ (o.type = "button" → accepts o v = true ∧
        assign o v c = .ok ⟨o, some o, c⟩) := by
  refine ⟨?_, ?_, ?_⟩
  · intro ha
    rw [assign_eq, if_pos ha]
    refine ⟨_, rfl, ?_, ?_⟩
    · unfold finishAssign
      by_cases hb : o.type = "button" <;> simp [hb, hh]
    · unfold finishAssign
      by_cases hb : o.type = "button" <;> simp [hb, hh]
  · intro ha r hr
    rw [assign_eq, if_neg (by simp [ha])] at hr
    by_cases he : o.type = "spin" ∧ v ≠ "" ∧ stof v = none
    · rw [if_pos he] at hr; cases hr
    · rw [if_neg he] at hr
      injection hr with hr2
      rw [← hr2]
      exact ⟨rfl, rfl⟩
  · intro hb
    have ha := accepts_button hb v
    refine ⟨ha, ?_⟩
    rw [assign_eq, if_pos ha]
    unfold finishAssign
    simp [hb, hh]

/-- Witness for C7: a Button with a hook, written the empty string: the
hook fires with the unchanged option. -/
theorem hook_fires_iff_accepted_witness :
    accepts (Opt.mkButton true) "" = true ∧
      assign (Opt.mkButton true) "" 0 =
        .ok ⟨Opt.mkButton true, some (Opt.mkButton true), 0⟩ :=
  (hook_fires_iff_accepted (Opt.mkButton true) "" 0 rfl).2.2 rfl

/-- C1, the code evaluated at the failing input: a Spin write whose text
`stof` cannot parse is not the silent no-op that `operator=`'s own comment
promises (bounds are checked defensively because the value "could" come
"from the user by console window") — `std::stof` is called inside the
rejection guard and its `std::invalid_argument` escapes `Option::operator=`
to the unprotected caller (modelled as `Except.error`); finite text beyond
`float` range likewise escapes as `std::out_of_range`. -/
theorem malformed_spin_write_raises :
    assign (Opt.mkSpin 20 0 20 false) "xyz" 0 = .error () := by decide

/-- C8 counterexample: declaring `Spin(16, 1, 33554432)` stores
`std::to_string(16.0) = "16.000000"`, not `"16"`; after the rejected write
of `"0"` the stored string is `"16.000000" ≠ "16"`. -/
theorem hash_default_not_the_string_16 :
    (Opt.mkSpin 16 1 33554432 true).currentValue = "16.000000"
    ∧ (Opt.mkSpin 16 1 33554432 true).currentValue ≠ "16"
    ∧ assign (Opt.mkSpin 16 1 33554432 true) "0" 0 =
        .ok ⟨Opt.mkSpin 16 1 33554432 true, none, 0⟩ := by decide

/-- C8 (amended): on `Spin("Hash", 16, 1, 33554432)` writing `"0"` is
rejected — the stored value remains `"16.000000"` (numerically 16) and the
hook is not invoked; writing `"64"` is accepted — the stored value becomes
`"64"` and the hook is invoked once with the updated setting. -/
theorem hash_write_scenario :
    assign (Opt.mkSpin 16 1 33554432 true) "0" 0 =
      .ok ⟨Opt.mkSpin 16 1 33554432 true, none, 0⟩
    ∧ (Opt.mkSpin 16 1 33554432 true).currentValue = "16.000000"
    ∧ (Opt.mkSpin 16 1 33554432 true).toDouble = some 16
    ∧ assign (Opt.mkSpin 16 1 33554432 true) "64" 0 =
        .ok ⟨{ Opt.mkSpin 16 1 33554432 true with currentValue := "64" },
          some { Opt.mkSpin 16 1 33554432 true with currentValue := "64" },
          0⟩ := by decide

theorem setAt_mem (om : OptionsMap) (name : String) (o : Opt) :
    ∃ p ∈ setAt om name o, ciEq p.1 name = true ∧ p.2 = o := by
  induction om with
  | nil => exact ⟨(name, o), List.mem_singleton.2 rfl, ciEq_refl name, rfl⟩
  | cons kv rest ih =>
      obtain ⟨k, old⟩ := kv
      unfold setAt
      by_cases hk : ciEq k name = true
      · rw [if_pos hk]
        exact ⟨(k, o), List.mem_cons_self _ _, hk, rfl⟩
      · rw [if_neg hk]
        rcases ih with ⟨p, hp, h1, h2⟩
        exact ⟨p, List.mem_cons_of_mem _ hp, h1, h2⟩

/-- C10 counterexample: one write of `"Off"` to the `Analysis Contempt`
combo advances the shared counter by 9, the number of token occurrences in
its `defaultValue`, not by the number (5) of distinct case-insensitive
tokens. -/
theorem combo_write_counter_per_occurrence :
    assign (Opt.mkCombo "Both var Off var White var Black var Both" "Both" false)
        "Off" 0 =
      .ok ⟨{ Opt.mkCombo "Both var Off var White var Black var Both" "Both" false
              with currentValue := "Off" }, none, 9⟩
    ∧ (buildComboKeys []
        (splitTokens "Both var Off var White var Black var Both")).length = 5
    ∧ (9 : Nat) ≠ 5 := by decide

/-- C10 (amended): the insertion-rank counter is one process-wide value
shared by every map; a non-empty Combo write advances it by one per token
occurrence of the setting's `defaultValue` (duplicates included), before
the accept/reject decision; a setting declared afterwards receives an
`insertionRank` equal to the advanced counter, strictly greater than any
rank assigned before the write plus the tokens consumed. -/
theorem combo_write_advances_shared_counter {o : Opt} (ho : o.type = "combo")
    {v : String} (hv : v ≠ "") (c : Nat) {r : AssignOut}
    (hr : assign o v c = .ok r) (om : OptionsMap) (name : String) (o2 : Opt) :
    r.counter = c + (splitTokens o.defaultValue).length
    ∧ (declare (r.counter, om) name o2).1 = r.counter + 1
    ∧ ∃ p ∈ (declare (r.counter, om) name o2).2, ciEq p.1 name = true
        ∧ p.2.idx = r.counter
        ∧ ∀ q ∈ om, q.2.idx < c →
            q.2.idx + (splitTokens o.defaultValue).length < p.2.idx := by
  have hc : r.counter = c + (splitTokens o.defaultValue).length := by
    rw [assign_eq] at hr
    by_cases ha : accepts o v = true
    · rw [if_pos ha] at hr
      injection hr with hr2
      rw [← hr2]
      unfold finishAssign
      simp [ho]
    · rw [if_neg ha,
        if_neg (fun he => by rw [ho] at he; exact absurd he.1 (by decide))] at hr
      injection hr with hr2
      rw [← hr2]
      simp [ho, hv]
  refine ⟨hc, rfl, ?_⟩
  rcases setAt_mem om name { o2 with idx := r.counter } with ⟨p, hp, hpe, hpo⟩
  refine ⟨p, hp, hpe, by rw [hpo], ?_⟩
  intro q hq hqc
  rw [hpo]
  show q.2.idx + _ < r.counter
  rw [hc]
  exact Nat.add_lt_add_right hqc _

/-- Witness for C10: after the `"Off"` write above (counter 0 → 9), a
declaration lands at rank 9, above every rank assigned before the write. -/
theorem combo_write_advances_shared_counter_witness :
    (9 : Nat) = 0 + (splitTokens "Both var Off var White var Black var Both").length
    ∧ (declare (9, ([] : OptionsMap)) "B" (Opt.mkString "s" false)).1 = 9 + 1
    ∧ ∃ p ∈ (declare (9, ([] : OptionsMap)) "B" (Opt.mkString "s" false)).2,
        ciEq p.1 "B" = true ∧ p.2.idx = 9
        ∧ ∀ q ∈ ([] : OptionsMap), q.2.idx < 0 →
            q.2.idx + (splitTokens "Both var Off var White var Black var Both").length
              < p.2.idx :=
  @combo_write_advances_shared_counter
    (Opt.mkCombo "Both var Off var White var Black var Both" "Both" false) rfl
    "Off" (by decide) 0
    ⟨{ Opt.mkCombo "Both var Off var White var Black var Both" "Both" false
        with currentValue := "Off" }, none, 9⟩
    (by decide) [] "B" (Opt.mkString "s" false)

/-! ### Enumeration -/

theorem findByIdx_mem {om : OptionsMap} {i : Nat} {p : String × Opt}
    (h : findByIdx om i = some p) : p ∈ om ∧ p.2.idx = i := by
  induction om with
  | nil => cases h
  | cons kv rest ih =>
      obtain ⟨k, o⟩ := kv
      unfold findByIdx at h
      by_cases hk : o.idx = i
      · rw [if_pos hk] at h
        injection h with h
        subst h
        exact ⟨List.mem_cons_self _ _, hk⟩
      · rw [if_neg hk] at h
        rcases ih h with ⟨h1, h2⟩
        exact ⟨List.mem_cons_of_mem _ h1, h2⟩

theorem findByIdx_eq_of_mem {om : OptionsMap}
    (hnd : (om.map (fun q => q.2.idx)).Nodup) {p : String × Opt}
    (hp : p ∈ om) : findByIdx om p.2.idx = some p := by
  induction om with
  | nil => cases hp
  | cons kv rest ih =>
      obtain ⟨k, o⟩ := kv
      rw [List.map_cons, List.nodup_cons] at hnd
      rcases List.mem_cons.1 hp with rfl | hp2
      · unfold findByIdx
        rw [if_pos rfl]
      · unfold findByIdx
        have hne : o.idx ≠ p.2.idx := by
          intro he
          exact hnd.1 (he ▸ List.mem_map.2 ⟨p, hp2, rfl⟩)
        rw [if_neg hne]
        exact ih hnd.2 hp2

theorem pairwise_filterMap_of {α β : Type} (f : α → Option β)
    {R : α → α → Prop} {S : β → β → Prop} {l : List α}
    (hf : ∀ a b x y, R a b → f a = some x → f b = some y → S x y)
    (h : List.Pairwise R l) : List.Pairwise S (l.filterMap f) := by
  induction l with
  | nil => exact List.Pairwise.nil
  | cons a t ih =>
      rcases List.pairwise_cons.1 h with ⟨ha, ht⟩
      rcases hfa : f a with _ | x
      · rw [List.filterMap_cons_none hfa]
        exact ih ht
      · rw [List.filterMap_cons_some hfa]
        refine List.pairwise_cons.2 ⟨?_, ih ht⟩
        intro y hy
        rcases List.mem_filterMap.1 hy with ⟨b, hb, hfb⟩
        exact hf a b x y (ha b hb) hfa hfb

/-- C4 counterexample: a Combo write between two declarations inflates the
shared counter, so the second declaration's rank (4) is at least the map's
size (2) and enumeration silently omits it: only `"A"` is yielded although
both `"A"` and `"B"` are declared. -/
theorem enumeration_skips_late_declaration :
    (declare (mapWrite
        (declare (0, ([] : OptionsMap)) "A" (Opt.mkCombo "x var y" "x" false)).1
        (declare (0, ([] : OptionsMap)) "A" (Opt.mkCombo "x var y" "x" false)).2
        "A" "y")
      "B" (Opt.mkString "s" false)).2.length = 2
    ∧ (enumerate (declare (mapWrite
        (declare (0, ([] : OptionsMap)) "A" (Opt.mkCombo "x var y" "x" false)).1
        (declare (0, ([] : OptionsMap)) "A" (Opt.mkCombo "x var y" "x" false)).2
        "A" "y")
      "B" (Opt.mkString "s" false)).2).map Prod.fst = ["A"] := by decide

/-- C4 (amended): provided the settings' insertion ranks are exactly
`{0, …, size−1}` — as they are after one uninterrupted declaration sequence
from a fresh counter, with no Combo write or cross-registry declaration in
between — enumeration yields every declared setting (with its stored,
original-case name), yields exactly `size` entries, and lists them in
strictly ascending `insertionRank` order; a setting whose rank reaches the
map's size is silently omitted. -/
theorem enumerate_complete (om : OptionsMap)
    (hperm : (om.map (fun q => q.2.idx)).Perm (List.range om.length)) :
    (∀ p ∈ om, p ∈ enumerate om)
    ∧ (enumerate om).length = om.length
    ∧ List.Pairwise (fun p q => p.2.idx < q.2.idx) (enumerate om) := by
  have hnd : (om.map (fun q => q.2.idx)).Nodup :=
    (List.Perm.nodup_iff hperm).2 (List.nodup_range _)
  have hsome : ∀ i ∈ List.range om.length, (findByIdx om i).isSome := by
    intro i hi
    have hmem : i ∈ om.map (fun q => q.2.idx) := (hperm.mem_iff).2 hi
    rcases List.mem_map.1 hmem with ⟨p, hp, he⟩
    rw [← he, findByIdx_eq_of_mem hnd hp]
    rfl
  refine ⟨?_, ?_, ?_⟩
  · intro p hp
    have hidx : p.2.idx ∈ List.range om.length :=
      (hperm.mem_iff).1 (List.mem_map.2 ⟨p, hp, rfl⟩)
    exact List.mem_filterMap.2 ⟨p.2.idx, hidx, findByIdx_eq_of_mem hnd hp⟩
  · unfold enumerate
    have hlen : ∀ (l : List Nat), (∀ i ∈ l, (findByIdx om i).isSome) →
        (l.filterMap (findByIdx om)).length = l.length := by
      intro l
      induction l with
      | nil => intro _; rfl
      | cons a t ih =>
          intro h
          rcases Option.isSome_iff_exists.1 (h a (List.mem_cons_self a t)) with ⟨b, hb⟩
          rw [List.filterMap_cons_some hb, List.length_cons,
            ih (fun x hx => h x (List.mem_cons_of_mem a hx)), List.length_cons]
    rw [hlen _ hsome, List.length_range]
  · unfold enumerate
    refine pairwise_filterMap_of (findByIdx om) ?_ (List.pairwise_lt_range _)
    intro a b x y hab hfa hfb
    rw [(findByIdx_mem hfa).2, (findByIdx_mem hfb).2]
    exact hab

/-- Witness for C4: a two-entry registry with ranks `{0, 1}` enumerates in
strictly ascending rank order. -/
theorem enumerate_complete_witness :
    List.Pairwise (fun p q => p.2.idx < q.2.idx)
      (enumerate [("A", Opt.mkString "a" false),
        ("B", { Opt.mkString "b" false with idx := 1 })]) :=
  (enumerate_complete
    [("A", Opt.mkString "a" false),
      ("B", { Opt.mkString "b" false with idx := 1 })] (by decide)).2.2

end UCI
end Stockfish
